import Mathlib

/-!
# Verification of the run persistence / retrieval core and the chunk splitter

Shallow embedding of the core algorithms of the `au-sys-docs` tool suite:

* the bounded-size sequential chunk splitter of
  `ai_agent_tool_vscode_handover.py` (`VSCodeChatExtractor.export_to_markdown`,
  lines 99–137);
* the pagination logic of `ai_agent_tool_view.py` (`main`, lines 55–75);
* the result/metadata accumulation loops of `ai_agent_tool_find.py`
  (lines 39–62) and `ai_agent_tool_grep.py` (lines 41–76);
* the tool-boundary error mapping of the `main` entry points.

Each definition mirrors the corresponding Python source; theorems below
settle the specification claims about them.
-/

set_option autoImplicit false

namespace AuSys

/-- A text block of the exported transcript together with its weight.
In the source a block is a string and its weight is `block.count('\n')`;
the loop of `export_to_markdown` consults a block only through this weight,
so the pair is the faithful interface of the splitting algorithm. -/
structure Block where
  text : String
  weight : Nat
deriving Repr, DecidableEq

/-- Total weight of a chunk: `sum(b.count('\n') for b in blocks)`
(line 99 of `ai_agent_tool_vscode_handover.py`). -/
def chunkWeight (c : List Block) : Nat :=
  (c.map Block.weight).sum

/-- The chunk-mode accumulation loop of `export_to_markdown`
(lines 122–136): state is the pending chunk `cur` (`current_blocks`) and the
running weight `curW` (`current_lines`).  Before adding a block, if
`current_lines + b_lines > chunk_size and current_lines > 0`, the pending
chunk is flushed and a fresh one is started with the block; at the end the
pending chunk is flushed when nonempty (`if current_blocks:`). -/
def chunkLoop (maxW : Nat) : List Block → List Block → Nat → List (List Block)
  | [], cur, _ => if cur.isEmpty then [] else [cur]
  | b :: rest, cur, curW =>
    if maxW < curW + b.weight ∧ 0 < curW then
      cur :: chunkLoop maxW rest [b] b.weight
    else
      chunkLoop maxW rest (cur ++ [b]) (curW + b.weight)

/-- The chunk partition produced by `export_to_markdown` (lines 74–137):
an empty request list yields nothing (line 75–76), a document whose total
weight fits in `chunk_size` is kept as a single chunk (lines 101–106), and
otherwise the chunk-mode loop splits it. -/
def splitChunks (blocks : List Block) (maxW : Nat) : List (List Block) :=
  if blocks.isEmpty then []
  else if chunkWeight blocks ≤ maxW then [blocks]
  else chunkLoop maxW blocks [] 0

theorem chunkWeight_append (c d : List Block) :
    chunkWeight (c ++ d) = chunkWeight c + chunkWeight d := by
  simp [chunkWeight]

theorem chunkLoop_flatten (maxW : Nat) :
    ∀ (bs cur : List Block) (curW : Nat),
      (chunkLoop maxW bs cur curW).flatten = cur ++ bs := by
  intro bs
  induction bs with
  | nil =>
    intro cur curW
    by_cases h : cur = [] <;> simp [chunkLoop, h]
  | cons b rest ih =>
    intro cur curW
    by_cases h : maxW < curW + b.weight ∧ 0 < curW
    · simp [chunkLoop, h, ih]
    · simp [chunkLoop, h, ih]

theorem chunkLoop_ne_nil (maxW : Nat) :
    ∀ (bs cur : List Block) (curW : Nat),
      (0 < curW → cur ≠ []) →
      ∀ c ∈ chunkLoop maxW bs cur curW, c ≠ [] := by
  intro bs
  induction bs with
  | nil =>
    intro cur curW _ c hc
    by_cases h : cur = []
    · simp [chunkLoop, h] at hc
    · simp [chunkLoop, h] at hc
      simpa [hc] using h
  | cons b rest ih =>
    intro cur curW hinv c hc
    by_cases h : maxW < curW + b.weight ∧ 0 < curW
    · simp only [chunkLoop, if_pos h, List.mem_cons] at hc
      rcases hc with rfl | hc
      · exact hinv h.2
      · exact ih [b] b.weight (by intro _ ; simp) c hc
    · simp only [chunkLoop, if_neg h] at hc
      exact ih (cur ++ [b]) (curW + b.weight) (by intro _ ; simp) c hc

/-- Number of blocks of a chunk whose own weight exceeds the bound. -/
def overCount (maxW : Nat) (c : List Block) : Nat :=
  c.countP (fun b => decide (maxW < b.weight))

theorem overCount_append (maxW : Nat) (c d : List Block) :
    overCount maxW (c ++ d) = overCount maxW c + overCount maxW d := by
  simp [overCount]

theorem chunkWeight_concat (c : List Block) (b : Block) :
    chunkWeight (c ++ [b]) = chunkWeight c + b.weight := by
  simp [chunkWeight]

theorem weight_le_chunkWeight {b : Block} {c : List Block} (hb : b ∈ c) :
    b.weight ≤ chunkWeight c :=
  List.single_le_sum (fun _ _ => Nat.zero_le _) _
    (List.mem_map_of_mem Block.weight hb)

theorem chunkWeight_eq_zero {c : List Block} (h : chunkWeight c = 0) :
    ∀ b ∈ c, b.weight = 0 := by
  intro b hb
  exact Nat.le_antisymm (h ▸ weight_le_chunkWeight hb) (Nat.zero_le _)

theorem overCount_eq_zero_of_weight_zero (maxW : Nat) {c : List Block}
    (h : chunkWeight c = 0) : overCount maxW c = 0 := by
  simp only [overCount, List.countP_eq_zero]
  intro b hb
  simp [chunkWeight_eq_zero h b hb]

theorem chunkLoop_weight_bound (maxW : Nat) :
    ∀ (bs cur : List Block) (curW : Nat),
      curW = chunkWeight cur →
      (chunkWeight cur ≤ maxW ∨ overCount maxW cur = 1) →
      ∀ c ∈ chunkLoop maxW bs cur curW,
        chunkWeight c ≤ maxW ∨ overCount maxW c = 1 := by
  intro bs
  induction bs with
  | nil =>
    intro cur curW _ hP c hc
    by_cases h : cur = [] <;> simp [chunkLoop, h] at hc
    exact hc ▸ hP
  | cons b rest ih =>
    intro cur curW hW hP c hc
    by_cases h : maxW < curW + b.weight ∧ 0 < curW
    · simp only [chunkLoop, if_pos h, List.mem_cons] at hc
      rcases hc with rfl | hc
      · exact hP
      · refine ih [b] b.weight (by simp [chunkWeight]) ?_ c hc
        by_cases hb : b.weight ≤ maxW
        · exact Or.inl (by simpa [chunkWeight] using hb)
        · exact Or.inr (by simp [overCount, Nat.lt_of_not_le hb])
    · simp only [chunkLoop, if_neg h] at hc
      refine ih (cur ++ [b]) (curW + b.weight)
        (by rw [chunkWeight_concat, hW]) ?_ c hc
      rcases Decidable.not_and_iff_or_not.mp h with h1 | h2
      · -- the combined weight still fits
        refine Or.inl ?_
        rw [chunkWeight_concat, ← hW]
        exact Nat.le_of_not_lt h1
      · -- the pending chunk has running weight zero
        have hcur0 : chunkWeight cur = 0 := by omega
        by_cases hb : b.weight ≤ maxW
        · exact Or.inl (by rw [chunkWeight_concat, hcur0]; simpa using hb)
        · refine Or.inr ?_
          rw [overCount_append, overCount_eq_zero_of_weight_zero maxW hcur0]
          simp [overCount, Nat.lt_of_not_le hb]

/-- Every chunk delivered by the splitter either fits in the bound or owns
exactly one oversized block. -/
theorem splitChunks_weight_bound (blocks : List Block) (maxW : Nat) :
    ∀ c ∈ splitChunks blocks maxW,
      chunkWeight c ≤ maxW ∨ overCount maxW c = 1 := by
  intro c hc
  unfold splitChunks at hc
  by_cases h0 : blocks.isEmpty
  · simp [h0] at hc
  · rw [if_neg h0] at hc
    by_cases h1 : chunkWeight blocks ≤ maxW
    · rw [if_pos h1] at hc
      simp only [List.mem_singleton] at hc
      exact Or.inl (hc ▸ h1)
    · rw [if_neg h1] at hc
      exact chunkLoop_weight_bound maxW blocks [] 0 (by simp [chunkWeight])
        (Or.inl (by simp [chunkWeight])) c hc

theorem eq_nil_of_pos_weights_of_weight_zero {c : List Block}
    (hpos : ∀ b ∈ c, 0 < b.weight) (h : chunkWeight c = 0) : c = [] := by
  cases c with
  | nil => rfl
  | cons b c =>
    have := chunkWeight_eq_zero h b (by simp)
    have := hpos b (by simp)
    omega

theorem chunkLoop_oversized_alone (maxW : Nat) :
    ∀ (bs cur : List Block) (curW : Nat),
      (∀ b ∈ bs, 0 < b.weight) →
      (∀ b ∈ cur, 0 < b.weight) →
      curW = chunkWeight cur →
      ((∀ b ∈ cur, b.weight ≤ maxW) ∨ ∃ b, cur = [b] ∧ maxW < b.weight) →
      ∀ c ∈ chunkLoop maxW bs cur curW, ∀ b ∈ c, maxW < b.weight → c = [b] := by
  intro bs
  induction bs with
  | nil =>
    intro cur curW _ _ _ hR c hc b hb hover
    by_cases h : cur = [] <;> simp [chunkLoop, h] at hc
    subst hc
    rcases hR with hsmall | ⟨b', rfl, _⟩
    · exact absurd hover (Nat.not_lt_of_le (hsmall b hb))
    · simp only [List.mem_singleton] at hb
      rw [hb]
  | cons b rest ih =>
    intro cur curW hbs hcur hW hR c hc
    have hbpos : 0 < b.weight := hbs b (by simp)
    have hrest : ∀ x ∈ rest, 0 < x.weight := fun x hx => hbs x (by simp [hx])
    by_cases h : maxW < curW + b.weight ∧ 0 < curW
    · simp only [chunkLoop, if_pos h, List.mem_cons] at hc
      rcases hc with rfl | hc
      · intro x hx hover
        rcases hR with hsmall | ⟨b', rfl, _⟩
        · exact absurd hover (Nat.not_lt_of_le (hsmall x hx))
        · simp only [List.mem_singleton] at hx
          rw [hx]
      · refine ih [b] b.weight hrest (by simpa using hbpos)
          (by simp [chunkWeight]) ?_ c hc
        by_cases hb : b.weight ≤ maxW
        · exact Or.inl (by simpa using hb)
        · exact Or.inr ⟨b, rfl, Nat.lt_of_not_le hb⟩
    · simp only [chunkLoop, if_neg h] at hc
      refine ih (cur ++ [b]) (curW + b.weight) hrest ?_
        (by rw [chunkWeight_concat, hW]) ?_ c hc
      · intro x hx
        rcases List.mem_append.mp hx with hx | hx
        · exact hcur x hx
        · simp only [List.mem_singleton] at hx
          exact hx ▸ hbpos
      · by_cases hzero : curW = 0
        · have : cur = [] :=
            eq_nil_of_pos_weights_of_weight_zero hcur (by omega)
          subst this
          by_cases hb : b.weight ≤ maxW
          · exact Or.inl (by simpa using hb)
          · exact Or.inr ⟨b, rfl, Nat.lt_of_not_le hb⟩
        · -- the loop did not flush with positive running weight,
          -- so the combined weight fits the bound
          have hfit : curW + b.weight ≤ maxW := by
            rcases Decidable.not_and_iff_or_not.mp h with h1 | h2
            · exact Nat.le_of_not_lt h1
            · omega
          have hsmall : ∀ x ∈ cur, x.weight ≤ maxW := by
            rcases hR with hsmall | ⟨b', rfl, hb'⟩
            · exact hsmall
            · exfalso
              have : chunkWeight [b'] = b'.weight := by simp [chunkWeight]
              omega
          refine Or.inl ?_
          intro x hx
          rcases List.mem_append.mp hx with hx | hx
          · exact hsmall x hx
          · simp only [List.mem_singleton] at hx
            subst hx
            omega

/-- A larger running weight never yields fewer chunks, and at most one
extra chunk, for the remainder of the loop. -/
theorem chunkLoop_length_mono (maxW : Nat) :
    ∀ (bs cur cur' : List Block) (w w' : Nat),
      cur ≠ [] → cur' ≠ [] → w ≤ w' →
      (chunkLoop maxW bs cur w).length ≤ (chunkLoop maxW bs cur' w').length ∧
      (chunkLoop maxW bs cur' w').length ≤ (chunkLoop maxW bs cur w).length + 1 := by
  intro bs
  induction bs with
  | nil =>
    intro cur cur' w w' hcur hcur' _
    simp [chunkLoop, hcur, hcur']
  | cons b rest ih =>
    intro cur cur' w w' hcur hcur' hww
    by_cases h' : maxW < w' + b.weight ∧ 0 < w'
    · by_cases h : maxW < w + b.weight ∧ 0 < w
      · simp only [chunkLoop, if_pos h, if_pos h', List.length_cons]
        omega
      · simp only [chunkLoop, if_neg h, if_pos h', List.length_cons]
        have := ih [b] (cur ++ [b]) b.weight (w + b.weight)
          (by simp) (by simp) (by omega)
        omega
    · have hno : ¬(maxW < w + b.weight ∧ 0 < w) := by
        intro hcon
        exact h' ⟨by omega, by omega⟩
      simp only [chunkLoop, if_neg hno, if_neg h']
      exact ih (cur ++ [b]) (cur' ++ [b]) (w + b.weight) (w' + b.weight)
        (by simp) (by simp) (by omega)

/-- With running weight zero the pending chunk's contents cannot influence
how the rest of a nonempty block list is cut. -/
theorem chunkLoop_length_zero_weight (maxW : Nat) (r : Block)
    (rest cur cur' : List Block) :
    (chunkLoop maxW (r :: rest) cur 0).length =
      (chunkLoop maxW (r :: rest) cur' 0).length := by
  have hno : ¬(maxW < 0 + r.weight ∧ 0 < 0) := by simp
  simp only [chunkLoop, if_neg hno]
  have h1 := chunkLoop_length_mono maxW rest (cur ++ [r]) (cur' ++ [r])
    (0 + r.weight) (0 + r.weight) (by simp) (by simp) (Nat.le_refl _)
  have h2 := chunkLoop_length_mono maxW rest (cur' ++ [r]) (cur ++ [r])
    (0 + r.weight) (0 + r.weight) (by simp) (by simp) (Nat.le_refl _)
  omega

/-- A group of blocks that fits in the bound is absorbed whole into the
pending chunk. -/
theorem chunkLoop_absorb (maxW : Nat) :
    ∀ (g rest cur : List Block) (curW : Nat),
      curW + chunkWeight g ≤ maxW →
      chunkLoop maxW (g ++ rest) cur curW =
        chunkLoop maxW rest (cur ++ g) (curW + chunkWeight g) := by
  intro g
  induction g with
  | nil =>
    intro rest cur curW _
    simp [chunkWeight]
  | cons b g ih =>
    intro rest cur curW hfit
    have hwcons : chunkWeight (b :: g) = b.weight + chunkWeight g := by
      simp [chunkWeight]
    have hno : ¬(maxW < curW + b.weight ∧ 0 < curW) := by
      intro hcon
      omega
    simp only [List.cons_append, chunkLoop, if_neg hno, List.append_eq]
    rw [ih rest (cur ++ [b]) (curW + b.weight) (by omega)]
    simp only [List.append_assoc, List.singleton_append]
    congr 1
    omega

/-- One group of a legal partition costs the greedy loop at most one chunk. -/
theorem chunkLoop_length_validGroup (maxW : Nat) (g rest : List Block)
    (hg : g ≠ [])
    (hv : chunkWeight g ≤ maxW ∨ ∃ b, g = [b] ∧ maxW < b.weight) :
    (chunkLoop maxW (g ++ rest) [] 0).length ≤
      (chunkLoop maxW rest [] 0).length + 1 := by
  rcases hv with hfit | ⟨b, rfl, _⟩
  · rw [chunkLoop_absorb maxW g rest [] 0 (by omega)]
    cases rest with
    | nil => simp [chunkLoop, hg]
    | cons r rest' =>
      have h1 := (chunkLoop_length_mono maxW (r :: rest') g g
        0 (0 + chunkWeight g) hg hg (by omega)).2
      have h2 := chunkLoop_length_zero_weight maxW r rest' g ([] : List Block)
      simp only [List.nil_append] at h1 h2 ⊢
      omega
  · have hno : ¬(maxW < 0 + b.weight ∧ 0 < 0) := by simp
    simp only [List.singleton_append, chunkLoop, if_neg hno]
    cases rest with
    | nil => simp [chunkLoop]
    | cons r rest' =>
      have h1 := (chunkLoop_length_mono maxW (r :: rest') [b] [b]
        0 (0 + b.weight) (by simp) (by simp) (by omega)).2
      have h2 := chunkLoop_length_zero_weight maxW r rest' [b] ([] : List Block)
      simp only [List.append_eq, List.nil_append] at h1 h2 ⊢
      omega

/-- A legal partition for the non-splitting weight constraint: consecutive
nonempty groups, each either within the bound or a single block that is
itself over the bound. -/
def IsValidPartition (maxW : Nat) (P : List (List Block)) : Prop :=
  ∀ c ∈ P, c ≠ [] ∧ (chunkWeight c ≤ maxW ∨ ∃ b, c = [b] ∧ maxW < b.weight)

theorem chunkLoop_length_min (maxW : Nat) :
    ∀ (P : List (List Block)), IsValidPartition maxW P →
      (chunkLoop maxW P.flatten [] 0).length ≤ P.length := by
  intro P
  induction P with
  | nil =>
    intro _
    simp [chunkLoop]
  | cons g P ih =>
    intro hP
    have hg := hP g (by simp)
    have hrec := ih (fun c hc => hP c (by simp [hc]))
    have := chunkLoop_length_validGroup maxW g P.flatten hg.1 hg.2
    simp only [List.flatten_cons, List.length_cons]
    omega

theorem splitChunks_flatten (blocks : List Block) (maxW : Nat) :
    (splitChunks blocks maxW).flatten = blocks := by
  unfold splitChunks
  by_cases h0 : blocks.isEmpty
  · rw [List.isEmpty_iff] at h0
    simp [h0]
  · rw [if_neg h0]
    by_cases h1 : chunkWeight blocks ≤ maxW
    · simp [h1]
    · rw [if_neg h1]
      simpa using chunkLoop_flatten maxW blocks [] 0

theorem splitChunks_ne_nil (blocks : List Block) (maxW : Nat) :
    ∀ c ∈ splitChunks blocks maxW, c ≠ [] := by
  intro c hc
  unfold splitChunks at hc
  by_cases h0 : blocks.isEmpty
  · simp [h0] at hc
  · rw [if_neg h0] at hc
    by_cases h1 : chunkWeight blocks ≤ maxW
    · rw [if_pos h1] at hc
      simp only [List.mem_singleton] at hc
      rw [List.isEmpty_iff] at h0
      exact hc ▸ h0
    · rw [if_neg h1] at hc
      exact chunkLoop_ne_nil maxW blocks [] 0 (by simp) c hc

/-- **C1**: for every block sequence and positive `max_weight`, the chunk
splitter of `export_to_markdown` returns chunks whose in-order concatenation
is exactly the input (no block dropped, duplicated, split or reordered), no
chunk is empty, and the chunk count is minimal among all order-preserving
partitions into consecutive groups obeying the non-splitting weight
constraint. -/
theorem splitChunks_partition_minimal (blocks : List Block) (maxW : Nat)
    (hmax : 0 < maxW) :
    (splitChunks blocks maxW).flatten = blocks ∧
    (∀ c ∈ splitChunks blocks maxW, c ≠ []) ∧
    ∀ P : List (List Block), IsValidPartition maxW P → P.flatten = blocks →
      (splitChunks blocks maxW).length ≤ P.length := by
  refine ⟨splitChunks_flatten blocks maxW, splitChunks_ne_nil blocks maxW, ?_⟩
  intro P hP hPb
  unfold splitChunks
  by_cases h0 : blocks.isEmpty
  · simp [h0]
  · rw [if_neg h0]
    by_cases h1 : chunkWeight blocks ≤ maxW
    · rw [if_pos h1]
      cases P with
      | nil =>
        rw [List.isEmpty_iff] at h0
        exact absurd hPb.symm h0
      | cons g P => simp
    · rw [if_neg h1, ← hPb]
      exact chunkLoop_length_min maxW P hP

/-- Witness for C1 at the spec's concrete scenario 3. -/
theorem splitChunks_partition_minimal_witness :
    (splitChunks [⟨"a", 300⟩, ⟨"b", 300⟩, ⟨"c", 300⟩] 500).flatten =
        [⟨"a", 300⟩, ⟨"b", 300⟩, ⟨"c", 300⟩] ∧
    (∀ c ∈ splitChunks [⟨"a", 300⟩, ⟨"b", 300⟩, ⟨"c", 300⟩] 500, c ≠ []) ∧
    ∀ P : List (List Block), IsValidPartition 500 P →
      P.flatten = [⟨"a", 300⟩, ⟨"b", 300⟩, ⟨"c", 300⟩] →
      (splitChunks [⟨"a", 300⟩, ⟨"b", 300⟩, ⟨"c", 300⟩] 500).length ≤ P.length :=
  splitChunks_partition_minimal [⟨"a", 300⟩, ⟨"b", 300⟩, ⟨"c", 300⟩] 500
    (by decide)

/-- **C2**: the loop closes the pending chunk exactly when the running
weight is positive and adding the next block would exceed `max_weight`
(this is the guard of `chunkLoop`); consequently every chunk's weight is
within the bound unless it carries exactly one block that is itself over
the bound. -/
theorem splitChunks_chunk_weight (blocks : List Block) (maxW : Nat)
    (hmax : 0 < maxW) :
    ∀ c ∈ splitChunks blocks maxW,
      chunkWeight c ≤ maxW ∨ overCount maxW c = 1 :=
  fun c hc => splitChunks_weight_bound blocks maxW c hc

/-- Witness for C2 on a document that must be cut: the chunk holding the
oversized 600-weight block satisfies the bound property. -/
theorem splitChunks_chunk_weight_witness :
    chunkWeight [⟨"c", 600⟩] ≤ 500 ∨ overCount 500 [⟨"c", 600⟩] = 1 :=
  splitChunks_chunk_weight [⟨"a", 300⟩, ⟨"b", 300⟩, ⟨"c", 600⟩] 500
    (by decide) [⟨"c", 600⟩] (by decide)

/-- Counterexample to C3 as stated: with a zero-weight block in front, an
oversized block is not placed alone — `splitChunks [("",0), ("",600)] 500`
returns the single chunk `[("",0), ("",600)]`, whose oversized second block
shares its chunk with the first block. -/
theorem splitChunks_oversized_shared_cx :
    ∃ c ∈ splitChunks [⟨"", 0⟩, ⟨"", 600⟩] 500,
      ∃ b ∈ c, 500 < b.weight ∧ c ≠ [b] := by decide

/-- **C3** (amended): provided every block has positive weight — true of
every block the exporter builds, since each contains newlines — any block
whose own weight exceeds `max_weight` is placed alone in its own chunk, and
no block is ever dropped or split (the chunks concatenate back to the
input). -/
theorem splitChunks_oversized_alone (blocks : List Block) (maxW : Nat)
    (hpos : ∀ b ∈ blocks, 0 < b.weight) :
    (splitChunks blocks maxW).flatten = blocks ∧
    ∀ c ∈ splitChunks blocks maxW, ∀ b ∈ c, maxW < b.weight → c = [b] := by
  refine ⟨splitChunks_flatten blocks maxW, ?_⟩
  intro c hc
  unfold splitChunks at hc
  by_cases h0 : blocks.isEmpty
  · simp [h0] at hc
  · rw [if_neg h0] at hc
    by_cases h1 : chunkWeight blocks ≤ maxW
    · rw [if_pos h1] at hc
      simp only [List.mem_singleton] at hc
      subst hc
      intro b hb hover
      exact absurd hover (Nat.not_lt_of_le (Nat.le_trans (weight_le_chunkWeight hb) h1))
    · rw [if_neg h1] at hc
      exact chunkLoop_oversized_alone maxW blocks [] 0 hpos (by simp)
        (by simp [chunkWeight]) (Or.inl (by simp)) c hc

/-- Witness for the amended C3. -/
theorem splitChunks_oversized_alone_witness :
    (splitChunks [⟨"a", 300⟩, ⟨"b", 600⟩] 500).flatten =
        [⟨"a", 300⟩, ⟨"b", 600⟩] ∧
    ∀ c ∈ splitChunks [⟨"a", 300⟩, ⟨"b", 600⟩] 500,
      ∀ b ∈ c, 500 < b.weight → c = [b] :=
  splitChunks_oversized_alone [⟨"a", 300⟩, ⟨"b", 600⟩] 500 (by decide)

/-- Python slice `l[a:b]` for non-negative bounds: the elements at indices
`a ≤ i < b`, clipped to the length of `l`. -/
def pySlice {α : Type} (l : List α) (a b : Nat) : List α :=
  (l.drop a).take (b - a)

/-- The pagination of `ai_agent_tool_view.py` (`main`, lines 55–75): with
`full` the whole result list is displayed; otherwise the window is
`results[offset : offset + limit]`, and the trailing "`... and N more`"
message reports `len(results) - (offset + limit)` exactly when
`len(results) > offset + limit` (otherwise nothing remains). -/
def viewPage {α : Type} (results : List α) (off lim : Nat) (full : Bool) :
    List α × Nat :=
  let window := if full then results else pySlice results off (off + lim)
  let remaining :=
    if full = false ∧ off + lim < results.length then
      results.length - (off + lim)
    else 0
  (window, remaining)

/-- **C4**: paging with `full = False` returns the window
`results[offset : offset+limit]` clipped to the sequence length, with
`remaining = max(0, len(results) - (offset+limit))`; an offset at or past
the end yields an empty window and `remaining = 0`, and the spec's concrete
scenario 2 holds. -/
theorem viewPage_window (α : Type) (results : List α) (off lim : Nat)
    (hlim : 0 < lim) :
    (viewPage results off lim false).1 = (results.drop off).take lim ∧
    (viewPage results off lim false).1.length =
      min lim (results.length - off) ∧
    (∀ i : Nat, (viewPage results off lim false).1.get? i =
      if i < lim then (results.drop off).get? i else none) ∧
    ((viewPage results off lim false).2 : Int) =
      max 0 ((results.length : Int) - (off + lim)) ∧
    (results.length ≤ off →
      (viewPage results off lim false).1 = [] ∧
      (viewPage results off lim false).2 = 0) ∧
    viewPage (List.range 25) 10 10 false =
      ([10, 11, 12, 13, 14, 15, 16, 17, 18, 19], 5) := by
  have hwin : (viewPage results off lim false).1 =
      (results.drop off).take lim := by
    simp [viewPage, pySlice]
  refine ⟨hwin, ?_, ?_, ?_, ?_, by decide⟩
  · rw [hwin]
    simp [Nat.min_comm]
  · intro i
    rw [hwin]
    by_cases hi : i < lim
    · rw [if_pos hi, List.get?_take hi]
    · rw [if_neg hi]
      exact List.get?_eq_none.mpr (Nat.le_trans (List.length_take_le _ _)
        (Nat.le_of_not_lt hi))
  · have hval : (viewPage results off lim false).2 =
        results.length - (off + lim) := by
      by_cases hrem : off + lim < results.length
      · simp [viewPage, hrem]
      · simp [viewPage, hrem]
        omega
    rw [hval]
    omega
  · intro hoff
    constructor
    · rw [hwin, List.drop_eq_nil_of_le hoff]
      simp
    · have hno : ¬ (off + lim < results.length) := by omega
      simp [viewPage, hno]

/-- Witness for C4 at the spec's concrete scenario 2. -/
theorem viewPage_window_witness :
    (viewPage (List.range 25) 10 10 false).1 =
      ((List.range 25).drop 10).take 10 ∧
    (viewPage (List.range 25) 10 10 false).1.length =
      min 10 ((List.range 25).length - 10) ∧
    (∀ i : Nat, (viewPage (List.range 25) 10 10 false).1.get? i =
      if i < 10 then ((List.range 25).drop 10).get? i else none) ∧
    ((viewPage (List.range 25) 10 10 false).2 : Int) =
      max 0 (((List.range 25).length : Int) - (10 + 10)) ∧
    ((List.range 25).length ≤ 10 →
      (viewPage (List.range 25) 10 10 false).1 = [] ∧
      (viewPage (List.range 25) 10 10 false).2 = 0) ∧
    viewPage (List.range 25) 10 10 false =
      ([10, 11, 12, 13, 14, 15, 16, 17, 18, 19], 5) :=
  viewPage_window Nat (List.range 25) 10 10 (by decide)

/-- Counterexample to C5 as stated: with `full = True`, `results = [0,1,2]`
and `offset = 2` the code shows all three results, not the claimed
`len(results) - offset = 1` items — the offset is ignored by the `full`
branch (`display_results = results`). -/
theorem viewPage_full_offset_cx :
    (viewPage ([0, 1, 2] : List Nat) 2 10 true).1.length = 3 ∧
    (viewPage ([0, 1, 2] : List Nat) 2 10 true).1.length ≠ 3 - 2 := by
  decide

/-- **C5** (amended): paging with `full = True` returns the entire result
sequence — all `len(results)` items, the offset being ignored for the
window — and reports `remaining = 0`. -/
theorem viewPage_full (α : Type) (results : List α) (off lim : Nat) :
    viewPage results off lim true = (results, 0) := by
  simp [viewPage]

/-- Zero padding of `f"{idx:03d}"`: at least three digits. -/
def pad3 (n : Nat) : String :=
  let s := toString n
  if s.length < 3 then String.mk (List.replicate (3 - s.length) '0') ++ s
  else s

/-- Chunk-mode file name `f"{base_stem}_part{idx:03d}{output_file.suffix}"`
(line 116 of `ai_agent_tool_vscode_handover.py`). -/
def partName (stem sfx : String) (idx : Nat) : String :=
  stem ++ "_part" ++ pad3 idx ++ sfx

/-- The output file names written by `export_to_markdown` (lines 101–137):
single-file mode writes to the plain output name, chunk mode numbers the
flushed chunks from 1. -/
def exportFileNames (stem sfx : String) (blocks : List Block) (maxW : Nat) :
    List String :=
  if blocks.isEmpty then []
  else if chunkWeight blocks ≤ maxW then [stem ++ sfx]
  else (List.range (chunkLoop maxW blocks [] 0).length).map
    (fun i => partName stem sfx (i + 1))

/-- Counterexample to C6 as stated: a single block of weight 600 with
`chunk_size = 500` produces exactly one chunk, yet the file is written with
the zero-padded sequence number (`…_part001.md`), not the plain output
name. -/
theorem exportFileNames_single_numbered_cx :
    (splitChunks [⟨"x", 600⟩] 500).length = 1 ∧
    exportFileNames "vscode_chat_history" ".md" [⟨"x", 600⟩] 500 =
      ["vscode_chat_history_part001.md"] ∧
    exportFileNames "vscode_chat_history" ".md" [⟨"x", 600⟩] 500 ≠
      ["vscode_chat_history.md"] := by
  refine ⟨rfl, rfl, ?_⟩
  decide

/-- **C6** (amended): file names carry a zero-padded sequence number
exactly when the total weight exceeds `chunk_size`; producing more than one
chunk implies numbering, and a within-bound document goes to the plain
output name — but a chunk-mode run yielding a single chunk is still
numbered. -/
theorem exportFileNames_numbering (stem sfx : String) (blocks : List Block)
    (maxW : Nat) (hne : blocks ≠ []) :
    (chunkWeight blocks ≤ maxW →
      exportFileNames stem sfx blocks maxW = [stem ++ sfx]) ∧
    (maxW < chunkWeight blocks →
      exportFileNames stem sfx blocks maxW =
        (List.range (splitChunks blocks maxW).length).map
          (fun i => partName stem sfx (i + 1))) ∧
    (1 < (splitChunks blocks maxW).length → maxW < chunkWeight blocks) := by
  have h0 : blocks.isEmpty = false := by
    simpa [List.isEmpty_iff] using hne
  refine ⟨?_, ?_, ?_⟩
  · intro hfit
    simp [exportFileNames, h0, hfit]
  · intro hbig
    have h1 : ¬ chunkWeight blocks ≤ maxW := Nat.not_le_of_lt hbig
    simp [exportFileNames, splitChunks, h0, h1]
  · intro hmany
    by_contra hsmall
    have h1 : chunkWeight blocks ≤ maxW := Nat.le_of_not_lt hsmall
    have : splitChunks blocks maxW = [blocks] := by
      simp [splitChunks, h0, h1]
    rw [this] at hmany
    simp at hmany

/-- Witness for the amended C6. -/
theorem exportFileNames_numbering_witness :
    (chunkWeight [⟨"a", 300⟩, ⟨"b", 300⟩] ≤ 500 →
      exportFileNames "h" ".md" [⟨"a", 300⟩, ⟨"b", 300⟩] 500 =
        ["h" ++ ".md"]) ∧
    (500 < chunkWeight [⟨"a", 300⟩, ⟨"b", 300⟩] →
      exportFileNames "h" ".md" [⟨"a", 300⟩, ⟨"b", 300⟩] 500 =
        (List.range (splitChunks [⟨"a", 300⟩, ⟨"b", 300⟩] 500).length).map
          (fun i => partName "h" ".md" (i + 1))) ∧
    (1 < (splitChunks [⟨"a", 300⟩, ⟨"b", 300⟩] 500).length →
      500 < chunkWeight [⟨"a", 300⟩, ⟨"b", 300⟩]) :=
  exportFileNames_numbering "h" ".md" [⟨"a", 300⟩, ⟨"b", 300⟩] 500
    (by decide)

/-- One entry of the chat session's `requests` list, as consumed by
`export_to_markdown` lines 80–97: the user message text and the `value`
fields of the response parts. -/
structure ChatRequest where
  message : String
  responses : List String
deriving Repr, DecidableEq

/-- A chat-session JSON as consumed by `export_to_markdown`: the `requests`
key may be absent (`data.get('requests', [])`). -/
structure ChatSession where
  requests : Option (List ChatRequest)
deriving Repr, DecidableEq

/-- Number of newline characters: `block.count('\n')`. -/
def countNL (s : String) : Nat :=
  s.toList.count '\n'

/-- The markdown block built for one request (lines 80–97): a `## User`
part, a coalesced `## Assistant` part when the joined response text is
nonempty and does not strip to nothing, and a trailing rule. -/
def requestBlock (r : ChatRequest) : Block :=
  let full := String.join r.responses
  let text := "\n\n## User\n" ++ r.message ++
    (if full ≠ "" ∧ full.trim ≠ "" then "\n\n## Assistant\n" ++ full else "")
    ++ "\n\n---"
  ⟨text, countNL text⟩

/-- `export_to_markdown` (lines 67–141) at the level of created files: a
JSON that fails to load or parse is caught by the wrapping `except` and
yields `[]`; an empty or absent `requests` list yields `[]` before any file
is written; otherwise the blocks are built and written under the
single-file or chunk-mode names. The returned list is exactly
`created_files`. -/
def export_to_markdown (loaded : Except String ChatSession)
    (stem sfx : String) (chunkSize : Nat) : List String :=
  match loaded with
  | .error _ => []
  | .ok data =>
    let reqs := data.requests.getD []
    if reqs.isEmpty then []
    else exportFileNames stem sfx (reqs.map requestBlock) chunkSize

/-- **C10**: for a chat-session JSON whose `requests` list is empty or
absent, `export_to_markdown` returns `[]` and creates no files, and any
load/parse failure is caught internally and also returns `[]` instead of
propagating. -/
theorem export_to_markdown_empty (stem sfx : String) (n : Nat) :
    (∀ msg : String, export_to_markdown (.error msg) stem sfx n = []) ∧
    (∀ d : ChatSession, d.requests.getD [] = [] →
      export_to_markdown (.ok d) stem sfx n = []) := by
  refine ⟨fun msg => rfl, ?_⟩
  intro d hd
  simp [export_to_markdown, hd]

/-- Witness for C10: an absent `requests` key and a failed load both yield
no created files. -/
theorem export_to_markdown_empty_witness :
    export_to_markdown (.error "invalid json") "h" ".md" 500 = [] ∧
    export_to_markdown (.ok ⟨none⟩) "h" ".md" 500 = [] :=
  ⟨(export_to_markdown_empty "h" ".md" 500).1 "invalid json",
   (export_to_markdown_empty "h" ".md" 500).2 ⟨none⟩ rfl⟩

/-- Metadata persisted by `ai_agent_tool_find.py` (lines 52–59). -/
structure FindMeta where
  tool : String
  query : String
  root : String
  regex : Bool
  count : Nat
deriving Repr, DecidableEq

/-- One grep match entry as persisted (lines 56–60 of
`ai_agent_tool_grep.py`). -/
structure MatchEntry where
  path : String
  line_number : Nat
  content : String
deriving Repr, DecidableEq

/-- Metadata persisted by `ai_agent_tool_grep.py` (lines 64–73). -/
structure GrepMeta where
  tool : String
  query : String
  file_pattern : String
  root : String
  regex : Bool
  count : Nat
  file_count : Nat
deriving Repr, DecidableEq

/-- The accumulation loop of `ai_agent_tool_find.py` `main` (lines 39–62):
each found item is resolved and appended to `results` while `count` is
incremented, then the metadata records `count`.  `resolve` stands for
`Path.resolve`, an external filesystem operation. -/
def findRun (resolve : String → String) (pattern root : String) (rx : Bool)
    (found : List String) : FindMeta × List String :=
  let acc := found.foldl
    (fun acc it => (acc.1 ++ [resolve it], acc.2 + 1))
    (([] : List String), 0)
  ({ tool := "ai_agent_tool_find", query := pattern, root := root,
     regex := rx, count := acc.2 }, acc.1)

/-- The accumulation loop of `ai_agent_tool_grep.py` `main` (lines 41–76):
each raw match's path is resolved, added to the `found_in_files` set and
appended to `results`, `count` is incremented, and the metadata records
`count` and `file_count = len(found_in_files)`. -/
def grepRun (resolve : String → String) (query fpat root : String)
    (rx : Bool) (found : List MatchEntry) : GrepMeta × List MatchEntry :=
  let acc := found.foldl
    (fun acc r =>
      (acc.1 ++ [⟨resolve r.path, r.line_number, r.content⟩], acc.2.1 + 1,
        insert (resolve r.path) acc.2.2))
    (([] : List MatchEntry), 0, (∅ : Finset String))
  ({ tool := "ai_agent_tool_grep", query := query, file_pattern := fpat,
     root := root, regex := rx, count := acc.2.1,
     file_count := acc.2.2.card }, acc.1)

theorem findRun_fold_spec (resolve : String → String) :
    ∀ (found rs : List String) (c : Nat),
      (found.foldl (fun acc it => (acc.1 ++ [resolve it], acc.2 + 1))
        (rs, c)).2 = c + found.length ∧
      (found.foldl (fun acc it => (acc.1 ++ [resolve it], acc.2 + 1))
        (rs, c)).1.length = rs.length + found.length := by
  intro found
  induction found with
  | nil => intro rs c; simp
  | cons it found ih =>
    intro rs c
    have := ih (rs ++ [resolve it]) (c + 1)
    simp only [List.foldl_cons, List.length_cons, List.length_append,
      List.length_nil, List.length_singleton] at this ⊢
    omega

theorem grepRun_fold_spec (resolve : String → String) :
    ∀ (found : List MatchEntry) (rs : List MatchEntry) (c : Nat)
      (s : Finset String),
      s = (rs.map MatchEntry.path).toFinset →
      (found.foldl
        (fun acc r =>
          (acc.1 ++ [⟨resolve r.path, r.line_number, r.content⟩],
            acc.2.1 + 1, insert (resolve r.path) acc.2.2))
        (rs, c, s)).2.1 = c + found.length ∧
      (found.foldl
        (fun acc r =>
          (acc.1 ++ [⟨resolve r.path, r.line_number, r.content⟩],
            acc.2.1 + 1, insert (resolve r.path) acc.2.2))
        (rs, c, s)).1.length = rs.length + found.length ∧
      (found.foldl
        (fun acc r =>
          (acc.1 ++ [⟨resolve r.path, r.line_number, r.content⟩],
            acc.2.1 + 1, insert (resolve r.path) acc.2.2))
        (rs, c, s)).2.2 =
        ((found.foldl
          (fun acc r =>
            (acc.1 ++ [⟨resolve r.path, r.line_number, r.content⟩],
              acc.2.1 + 1, insert (resolve r.path) acc.2.2))
          (rs, c, s)).1.map MatchEntry.path).toFinset := by
  intro found
  induction found with
  | nil =>
    intro rs c s hs
    simpa using hs
  | cons r found ih =>
    intro rs c s hs
    have hstep : insert (resolve r.path) s =
        (((rs ++ [MatchEntry.mk (resolve r.path) r.line_number r.content]).map
          MatchEntry.path).toFinset) := by
      rw [hs]
      simp [List.toFinset_append, Finset.insert_eq, Finset.union_comm]
    have := ih (rs ++ [MatchEntry.mk (resolve r.path) r.line_number r.content])
      (c + 1) (insert (resolve r.path) s) hstep
    simp only [List.foldl_cons, List.length_cons, List.length_append,
      List.length_nil, List.length_singleton] at this ⊢
    exact ⟨by omega, by omega, this.2.2⟩

/-- **C7**: for both producer tools, the `count` recorded in the persisted
metadata equals the length of the persisted result list. -/
theorem persisted_count_eq_length (resolve : String → String)
    (pattern root q fpat : String) (rx : Bool)
    (foundF : List String) (foundG : List MatchEntry) :
    (findRun resolve pattern root rx foundF).1.count =
      (findRun resolve pattern root rx foundF).2.length ∧
    (grepRun resolve q fpat root rx foundG).1.count =
      (grepRun resolve q fpat root rx foundG).2.length := by
  constructor
  · have := findRun_fold_spec resolve foundF [] 0
    simp only [List.length_nil, Nat.zero_add] at this
    simp only [findRun]
    omega
  · have := grepRun_fold_spec resolve foundG [] 0 ∅ (by simp)
    simp only [List.length_nil, Nat.zero_add] at this
    simp only [grepRun]
    omega

/-- **C9**: the `file_count` recorded by the grep tool equals the number of
distinct resolved paths among the persisted match entries; in particular
`file_count ≤ count` and `file_count = 0` exactly when `count = 0`. -/
theorem grep_file_count (resolve : String → String)
    (q fpat root : String) (rx : Bool) (found : List MatchEntry) :
    (grepRun resolve q fpat root rx found).1.file_count =
      ((grepRun resolve q fpat root rx found).2.map
        MatchEntry.path).toFinset.card ∧
    (grepRun resolve q fpat root rx found).1.file_count ≤
      (grepRun resolve q fpat root rx found).1.count ∧
    ((grepRun resolve q fpat root rx found).1.file_count = 0 ↔
      (grepRun resolve q fpat root rx found).1.count = 0) := by
  obtain ⟨hcount, hlen, hset⟩ := grepRun_fold_spec resolve found [] 0 ∅ (by simp)
  have hfc : (grepRun resolve q fpat root rx found).1.file_count =
      ((grepRun resolve q fpat root rx found).2.map
        MatchEntry.path).toFinset.card := by
    simp only [grepRun]
    rw [hset]
  have hcl : (grepRun resolve q fpat root rx found).1.count =
      (grepRun resolve q fpat root rx found).2.length := by
    simp only [grepRun]
    simp only [List.length_nil, Nat.zero_add] at hcount hlen
    omega
  have hgen : ∀ l : List MatchEntry,
      ((l.map MatchEntry.path).toFinset.card = 0 ↔ l.length = 0) := by
    intro l
    cases l with
    | nil => simp
    | cons e es => simp [Finset.card_eq_zero]
  refine ⟨hfc, ?_, ?_⟩
  · rw [hfc, hcl]
    simpa using
      List.toFinset_card_le
        ((grepRun resolve q fpat root rx found).2.map MatchEntry.path)
  · rw [hfc, hcl]
    exact hgen _

/-- The failures `load_results` can surface in the viewer: no run with the
given id, stored payload unreadable or inconsistent, or some other
exception; `main` catches them all alike. -/
inductive ViewFailure where
  | notFound (msg : String)
  | corruptData (msg : String)
  | other (msg : String)
deriving Repr, DecidableEq

def ViewFailure.message : ViewFailure → String
  | .notFound m => m
  | .corruptData m => m
  | .other m => m

/-- Outcome of one tool invocation: the process exit code and the lines
printed to the error stream. -/
structure ExitResult where
  code : Nat
  errOut : List String
deriving Repr, DecidableEq

/-- The `try/except` boundary of `ai_agent_tool_view.py` `main`
(lines 44–82): a normal return exits 0; any exception prints
`"Error loading run: …"` to stderr and exits 1. -/
def viewMainBoundary {O : Type} (outcome : Except ViewFailure O) :
    ExitResult :=
  match outcome with
  | .ok _ => ⟨0, []⟩
  | .error e => ⟨1, ["Error loading run: " ++ e.message]⟩

/-- The boundary of `ai_agent_tool_copy.py` `main` (lines 25–52): an
invalid `--date` value exits 1 with a message before any copying; then any
exception from the copy exits 1 with its message; otherwise exit 0.
`dateArg` is `none` when `--date` was not given and `some p` with the
external parse result `p` otherwise. -/
def copyMainBoundary {D O : Type} (dateArg : Option (Option D))
    (outcome : Except String O) : ExitResult :=
  match dateArg with
  | some none => ⟨1, ["Error: Invalid date format. Use YYYY-MM-DD."]⟩
  | _ =>
    match outcome with
    | .ok _ => ⟨0, []⟩
    | .error e => ⟨1, ["Error: " ++ e]⟩

/-- The `try/except` boundary of `ai_agent_tool_find.py` `main`
(lines 38–75). -/
def findMainBoundary {O : Type} (outcome : Except String O) : ExitResult :=
  match outcome with
  | .ok _ => ⟨0, []⟩
  | .error e => ⟨1, ["Error during find: " ++ e]⟩

/-- **C8**: each tool invocation exits 0 on success and 1 on any
lookup/parse failure (run not found, corrupt data, invalid date or other
argument failure raised in the tool body), printing the error message on
the error stream. -/
theorem tool_exit_codes (D O : Type) :
    (∀ v : O, viewMainBoundary (Except.ok v : Except ViewFailure O) =
      ⟨0, []⟩) ∧
    (∀ e : ViewFailure,
      viewMainBoundary (Except.error e : Except ViewFailure O) =
        ⟨1, ["Error loading run: " ++ e.message]⟩) ∧
    (∀ oc : Except String O,
      copyMainBoundary (some (none : Option D)) oc =
        ⟨1, ["Error: Invalid date format. Use YYYY-MM-DD."]⟩) ∧
    (∀ v : O, copyMainBoundary (none : Option (Option D))
      (Except.ok v : Except String O) = ⟨0, []⟩) ∧
    (∀ (d : D) (v : O), copyMainBoundary (some (some d))
      (Except.ok v : Except String O) = ⟨0, []⟩) ∧
    (∀ m : String, copyMainBoundary (none : Option (Option D))
      (Except.error m : Except String O) = ⟨1, ["Error: " ++ m]⟩) ∧
    (∀ (d : D) (m : String), copyMainBoundary (some (some d))
      (Except.error m : Except String O) = ⟨1, ["Error: " ++ m]⟩) ∧
    (∀ v : O, findMainBoundary (Except.ok v : Except String O) = ⟨0, []⟩) ∧
    (∀ m : String, findMainBoundary (Except.error m : Except String O) =
      ⟨1, ["Error during find: " ++ m]⟩) := by
  refine ⟨fun _ => rfl, fun _ => rfl, ?_, fun _ => rfl, fun _ _ => rfl,
    fun _ => rfl, fun _ _ => rfl, fun _ => rfl, fun _ => rfl⟩
  intro oc
  cases oc <;> rfl

end AuSys
